import Mathlib

/-!
Verification of the ONNX-to-Relax graph-lowering frontend
(`python/tvm/relax/frontend/onnx/onnx_frontend.py`).

The development shallowly embeds the lowering engine: tensors are modelled as
one-dimensional integer vectors (`List Int`), Relax expressions as a tagged
variant `EValue` (constant / shape expression / dataflow variable / tuple),
the importer's `self._nodes` and `self._inputs` dictionaries as association
lists with Python-dict semantics (insertion order preserved, assignment to an
existing key updates in place), and raised Python exceptions as `Except` errors.
Per-operator converters are threaded through the driver as an explicit
parameter, mirroring `_get_convert_map`'s dispatch table; the `Add` converter
(`Add._impl_v13`) is modelled in full since the claims exercise it.
-/

namespace Onnx

/-- Struct-info classification of a Relax expression, as used by
`isinstance(inp.struct_info, relax.ShapeStructInfo)` checks. -/
inductive SInfo where
  | tensorInfo
  | shapeInfo
  | tupleInfo
deriving DecidableEq, Repr

/-- The values bound in the importer environment (`self._nodes`): a
materialized constant tensor (`relax.Constant`, modelled as a 1-D integer
vector), a shape expression (`relax.ShapeExpr`), a dataflow variable
(`relax.Var`, carrying its struct info and — for graph inputs — the dtype it
was declared with), or a Relax tuple. -/
inductive EValue where
  | const (data : List Int)
  | shapeExpr (dims : List Int)
  | var (name : String) (si : SInfo) (dtype : Option String)
  | tupleV (vs : List EValue)

/-- Struct info of a value: constants are tensor-typed, shape expressions are
shape-typed, variables carry their own struct info, tuples are tuple-typed. -/
def structInfoOf : EValue → SInfo
  | .const _ => .tensorInfo
  | .shapeExpr _ => .shapeInfo
  | .var _ si _ => si
  | .tupleV _ => .tupleInfo

/-- Test `isinstance(v, relax.Var)` for the parameter-list filter in `from_onnx`. -/
def isVar : EValue → Bool
  | .var .. => true
  | _ => false

/-- Python exceptions raised by the lowering pass. -/
inductive Err where
  | emptyInitName
  | unsupportedOps (ops : List String)
  | shapeExprError (node : String)
  | operatorNotImplemented (op : String)
  | opsetNotImplemented (op : String)
  | arityMismatch (declared produced : Nat)
  | indexError
  | keyError (name : String)
  | typeError
  | broadcastError

/-- An importer environment: Python `dict` modelled as an association list in
insertion order (keys unique, as in a Python dict). -/
abbrev Env := List (String × EValue)

/-- Python dict lookup `d[k]` (as an `Option`). -/
def dictGet : Env → String → Option EValue
  | [], _ => none
  | p :: rest, k => if p.1 = k then some p.2 else dictGet rest k

/-- Python dict assignment `d[k] = v`: updates the entry in place if the key
exists (keeping its position), otherwise appends at the end. -/
def dictInsert : Env → String → EValue → Env
  | [], k, v => [(k, v)]
  | p :: rest, k, v => if p.1 = k then (k, v) :: rest else p :: dictInsert rest k v

theorem dictGet_nil (k : String) : dictGet [] k = none := rfl

theorem dictGet_dictInsert_self (d : Env) (k : String) (v : EValue) :
    dictGet (dictInsert d k v) k = some v := by
  induction d with
  | nil => simp [dictInsert, dictGet]
  | cons p rest ih =>
    by_cases hp : p.1 = k
    · simp [dictInsert, hp, dictGet]
    · simpa [dictInsert, hp, dictGet] using ih

theorem dictGet_dictInsert_ne (d : Env) (k k' : String) (v : EValue)
    (h : k' ≠ k) : dictGet (dictInsert d k v) k' = dictGet d k' := by
  induction d with
  | nil => simp [dictInsert, dictGet, Ne.symm h]
  | cons p rest ih =>
    by_cases hp : p.1 = k
    · simp [dictInsert, hp, dictGet, Ne.symm h]
    · by_cases hq : p.1 = k'
      · simp [dictInsert, hp, hq, dictGet, h]
      · simpa [dictInsert, hp, hq, dictGet] using ih

/-! ### `onnx_input`: the total operand list (`onnx_input.__getitem__`) -/

/-- Model of `onnx_input.__getitem__` for an integer index: Python semantics.
`item < len(self)` falls through to ordinary list indexing (which accepts
negative indices down to `-len` and raises `IndexError` below that); an index
`≥ len(self)` yields `None` instead of raising. -/
def onnx_input_get {α : Type} (l : List α) (i : Int) : Except Unit (Option α) :=
  if i < (l.length : Int) then
    if 0 ≤ i then .ok l[i.toNat]?
    else if 0 ≤ i + (l.length : Int) then .ok l[(i + (l.length : Int)).toNat]?
    else .error ()
  else .ok none

/-- Model of `onnx_input.__getitem__` for a slice with no stop bound and unit step:
`stop` is replaced by `len(self)`, the index list is `range(len(self))[start:]`
(clamped by Python slice semantics), and each index is read back through
`__getitem__`. -/
def onnx_input_slice_noStop {α : Type} (l : List α) (start : Option Int) : List α :=
  let n := l.length
  let s0 : Nat :=
    match start with
    | none => 0
    | some s => if 0 ≤ s then min s.toNat n else (s + (n : Int)).toNat
  ((List.range n).drop s0).filterMap (fun i => l[i]?)

/-- Nonnegative reads used by converters on resolved operand lists
(`inputs[0]`, `inputs[1]`, ...): the element when in range, else `None`. -/
def inputsItem (l : List (Option EValue)) (i : Nat) : Option EValue :=
  l.getD i none

/-! ### `OnnxOpConverter.get_converter` -/

/-- Python list indexing `l[i]` with negative-index wrap-around. -/
def pyGet (l : List Nat) (i : Int) : Option Nat :=
  if 0 ≤ i then l.get? i.toNat
  else if 0 ≤ i + (l.length : Int) then l.get? (i + (l.length : Int)).toNat
  else none

/-- Index of `max([i for i, v in enumerate(versions) if v == opset])`: the
largest position carrying `opset` (in an increasing `List.range` enumeration,
the last matching index is the largest). -/
def maxMatchIdx (versions : List Nat) (opset : Nat) : Option Nat :=
  ((List.range versions.length).filter (fun i => versions.getD i 0 == opset)).getLast?

/-- Model of `OnnxOpConverter.get_converter`, given the class's registered
`_impl_v*` version numbers: sort `versions + [opset]`, take the entry just
before the last occurrence of `opset`, and return it when the class has a
matching `_impl_v{version}` method (`none` models the `NotImplementedError`
raise, as well as the unreachable empty-`max` and index-error paths). -/
def get_converter (registered : List Nat) (opset : Nat) : Option Nat :=
  let versions := List.insertionSort (· ≤ ·) (registered ++ [opset])
  match maxMatchIdx versions opset with
  | none => none
  | some m =>
    match pyGet versions ((m : Int) - 1) with
    | none => none
    | some version => if version ∈ registered then some version else none

/-! ### The operator registry (`_get_convert_map`) -/

/-- The key set of `_get_convert_map()`, in source order. -/
def convert_map : List String :=
  ["MatMul", "Concat", "Add", "Mul", "Cast", "Gather", "Gemm", "Reshape",
   "Div", "Sigmoid", "Softmax", "Transpose", "Unsqueeze", "Gelu", "BiasGelu",
   "Where", "Clip", "Equal", "Shape", "Not", "Tanh", "Sqrt", "Relu", "Conv",
   "Pow", "Erf", "CumSum", "Squeeze", "Constant", "Sub", "Sin", "Cos", "Neg",
   "Abs", "Min", "Max", "Log", "Exp", "Less", "LessOrEqual",
   "LayerNormalization", "SkipLayerNormalization", "EmbedLayerNormalization",
   "InstanceNormalization", "ReduceMax", "ReduceMin", "ReduceSum",
   "ReduceMean", "ReduceProd", "ReduceLogSumExp", "ReduceLogSum",
   "ReduceSumSquare", "ReduceL1", "ReduceL2", "ArgMax", "ArgMin", "Expand",
   "ConstantOfShape", "Slice", "Attention", "Pad", "Split", "Tile",
   "BatchNormalization", "GlobalAveragePool", "Flatten", "MaxPool",
   "Identity", "Resize", "Einsum", "Range", "Greater", "Reciprocal", "OneHot"]

/-- The `_impl_v*` version numbers defined by each converter class (every
class inherits directly from `OnnxOpConverter`, so `dir(cls)` sees exactly
the class's own implementations). -/
def registered_versions : String → List Nat
  | "MatMul" => [13] | "Concat" => [13] | "Add" => [13] | "Mul" => [13]
  | "Cast" => [13] | "Gather" => [13] | "Gemm" => [13] | "Reshape" => [13]
  | "Div" => [14] | "Sigmoid" => [13] | "Softmax" => [13]
  | "Transpose" => [13] | "Unsqueeze" => [11, 13] | "Gelu" => [1]
  | "BiasGelu" => [1] | "Where" => [16] | "Clip" => [13] | "Equal" => [13]
  | "Shape" => [13] | "Not" => [13] | "Tanh" => [13] | "Sqrt" => [13]
  | "Relu" => [13] | "Conv" => [11] | "Pow" => [13] | "Erf" => [13]
  | "CumSum" => [14] | "Squeeze" => [13] | "Constant" => [13]
  | "Sub" => [13] | "Sin" => [7] | "Cos" => [7] | "Neg" => [13]
  | "Abs" => [13] | "Min" => [13] | "Max" => [13] | "Log" => [13]
  | "Exp" => [1, 13] | "Less" => [13] | "LessOrEqual" => [13]
  | "LayerNormalization" => [17] | "SkipLayerNormalization" => [1]
  | "EmbedLayerNormalization" => [1] | "InstanceNormalization" => [6]
  | "ReduceMax" => [11] | "ReduceMin" => [11] | "ReduceSum" => [11, 13]
  | "ReduceMean" => [13] | "ReduceProd" => [13] | "ReduceLogSumExp" => [13]
  | "ReduceLogSum" => [13] | "ReduceSumSquare" => [13] | "ReduceL1" => [13]
  | "ReduceL2" => [13] | "ArgMax" => [1, 11, 12] | "ArgMin" => [1, 11, 12]
  | "Expand" => [13] | "ConstantOfShape" => [9] | "Slice" => [13]
  | "Attention" => [1] | "Pad" => [11] | "Split" => [1, 13] | "Tile" => [13]
  | "BatchNormalization" => [16] | "GlobalAveragePool" => [1]
  | "Flatten" => [13] | "MaxPool" => [12] | "Identity" => [1]
  | "Resize" => [18] | "Einsum" => [12] | "Range" => [12] | "Greater" => [13]
  | "Reciprocal" => [13] | "OneHot" => [11]
  | _ => []

/-! ### `_check_for_unsupported_ops` -/

/-- Accumulates the distinct operator names that are neither registry keys
nor `"Constant"`, in first-encounter order (the Python code accumulates them
in a `set`). -/
def unsupportedAux : List String → List String → List String
  | [], acc => acc
  | op :: rest, acc =>
    if op ∈ convert_map ∨ op = "Constant" ∨ op ∈ acc then unsupportedAux rest acc
    else unsupportedAux rest (acc ++ [op])

/-- The distinct unsupported operator names of a node list. -/
def unsupported_ops (ops : List String) : List String :=
  unsupportedAux ops []

/-- Model of `ONNXGraphImporter._check_for_unsupported_ops`: collect every distinct
unsupported operator name over the whole graph, then raise a single
`OpNotImplemented` whose message lists them all (the error payload here is
the list the message is joined from). -/
def check_for_unsupported_ops (ops : List String) : Except Err Unit :=
  let u := unsupported_ops ops
  if u = [] then .ok () else .error (.unsupportedOps u)

/-! ### The shape-operand guard in `_construct_nodes` -/

/-- The fixed allow-list of shape-aware operators. -/
def shape_compatible_ops : List String :=
  ["Reshape", "ConstantOfShape", "Gather", "Slice", "Expand"]

/-- The per-node guard: some resolved (non-`None`) operand has
`relax.ShapeStructInfo` and the operator is not shape-compatible. -/
def shapeReject (op : String) (inputs : List (Option EValue)) : Bool :=
  inputs.any (fun i =>
    match i with
    | some v => structInfoOf v == SInfo.shapeInfo && !(shape_compatible_ops.contains op)
    | none => false)

/-! ### Converter results and output binding (`_construct_nodes`, tail) -/

/-- A converter's result after `bb.normalize` and the tuple-unpacking step:
either a single (non-tuple) expression, or a `relax.Tuple` of expressions
(as produced directly or by unpacking a tuple-typed variable). -/
inductive ConvRes where
  | one (v : EValue)
  | many (vs : List EValue)

/-- Python `outputs_num`: 1 for a single expression, the field count for a tuple. -/
def outputsNum : ConvRes → Nat
  | .one _ => 1
  | .many vs => vs.length

/-- The Python object `op` that gets bound when `outputs_num == 1`
(for a 1-tuple this is the tuple itself). -/
def resultValue : ConvRes → EValue
  | .one v => v
  | .many vs => .tupleV vs

/-- The result component positionally associated with declared output `i`. -/
def resComponent (res : ConvRes) (i : Nat) : Option EValue :=
  if outputsNum res = 1 then (if i = 0 then some (resultValue res) else none)
  else
    match res with
    | .one _ => none
    | .many vs => vs[i]?

/-- The output-binding tail of `_construct_nodes`: assert that the node does
not declare more outputs than produced (`AssertionError` otherwise, modelled
as `arityMismatch`); then either bind `outputs[0]` (an `IndexError` when the
node declares no outputs) or bind each declared name to `op[i]` pairwise. -/
def bindOutputs (env : Env) (outputs : List String) (res : ConvRes) : Except Err Env :=
  if outputs.length ≤ outputsNum res then
    if outputsNum res = 1 then
      match outputs with
      | [] => .error .indexError
      | o :: _ => .ok (dictInsert env o (resultValue res))
    else
      match res with
      | .one _ => .ok env
      | .many vs => .ok ((outputs.zip vs).foldl (fun e kv => dictInsert e kv.1 kv.2) env)
  else .error (.arityMismatch outputs.length (outputsNum res))

/-! ### Node records and operand resolution -/

/-- An ONNX `NodeProto` as consumed by `_construct_nodes`. -/
structure Node where
  op_type : String
  name : String
  input : List String
  output : List String

/-- Operand resolution in `_construct_nodes`: an empty input name yields an
explicit `None` entry, any other name is looked up in `self._nodes`
(`KeyError` if unbound). -/
def resolve_inputs (env : Env) : List String → Except Err (List (Option EValue))
  | [] => .ok []
  | i :: rest =>
    if i = "" then
      match resolve_inputs env rest with
      | .ok tl => .ok (none :: tl)
      | .error e => .error e
    else
      match dictGet env i with
      | some v =>
        match resolve_inputs env rest with
        | .ok tl => .ok (some v :: tl)
        | .error e => .error e
      | none => .error (.keyError i)

/-- The signature of the per-operator converter table: operator name and
selected implementation version to a converter over resolved operands.
The driver is parametric in this table, mirroring `_get_convert_map`. -/
abbrev ConvImpl := String → Nat → List (Option EValue) → Except Err ConvRes

/-- Model of `ONNXGraphImporter._convert_operator`: look the operator up in the
convert map (`NotImplementedError` when absent), select the implementation
version through `get_converter` (`NotImplementedError` when version selection
fails), and invoke it. -/
def convert_operator (impl : ConvImpl) (op_name : String) (opset : Nat)
    (inputs : List (Option EValue)) : Except Err ConvRes :=
  if op_name ∈ convert_map then
    match get_converter (registered_versions op_name) opset with
    | some version => impl op_name version inputs
    | none => .error (.opsetNotImplemented op_name)
  else .error (.operatorNotImplemented op_name)

/-- Model of `ONNXGraphImporter._construct_nodes`: for each node in declaration order,
resolve operands, reject shape-typed operands outside the allow-list
(`ValueError`), convert, and bind the outputs. -/
def construct_nodes (impl : ConvImpl) (opset : Nat) : Env → List Node → Except Err Env
  | env, [] => .ok env
  | env, nd :: rest =>
    match resolve_inputs env nd.input with
    | .error e => .error e
    | .ok inputs =>
      if shapeReject nd.op_type inputs then .error (.shapeExprError nd.name)
      else
        match convert_operator impl nd.op_type opset inputs with
        | .error e => .error e
        | .ok res =>
          match bindOutputs env nd.output res with
          | .error e => .error e
          | .ok env' => construct_nodes impl opset env' rest

/-! ### The `Add` converter (`Add._impl_v13`) -/

/-- Elementwise numpy addition on 1-D integer tensors, with scalar
broadcasting; shapes that numpy cannot broadcast raise. -/
def np_add (xs ys : List Int) : Except Err (List Int) :=
  if xs.length = ys.length then .ok (List.zipWith (· + ·) xs ys)
  else if xs.length = 1 then .ok (ys.map (fun y => xs.headD 0 + y))
  else if ys.length = 1 then .ok (xs.map (fun x => x + ys.headD 0))
  else .error .broadcastError

/-- Model of `Add._impl_v13`: when every operand is a `relax.Constant`, fold the
addition eagerly into a new constant; otherwise emit a deferred
`relax.op.add` call (a dataflow variable). Reading `.data` off a `None`
operand, or passing `None` to `relax.op.add`, raises (`typeError`). -/
def Add_impl_v13 (inputs : List (Option EValue)) : Except Err ConvRes :=
  if inputs.all (fun i => match i with | some (.const _) => true | _ => false) then
    match inputsItem inputs 0, inputsItem inputs 1 with
    | some (.const xs), some (.const ys) =>
      match np_add xs ys with
      | .ok r => .ok (.one (.const r))
      | .error e => .error e
    | _, _ => .error .typeError
  else
    match inputsItem inputs 0, inputsItem inputs 1 with
    | some _, some _ => .ok (.one (.var "add" .tensorInfo none))
    | _, _ => .error .typeError

/-! ### Name supply and `_sanitize_name`

`tvm.ir.supply.NameSupply` is an external collaborator (not part of this
source tree), so it is modelled from the spec below.  Decimal rendering of
the numeric suffix is built from first principles so that its injectivity is
provable. -/

/-- The decimal digit character of `d` (for `d < 10`). -/
def digitChar : Nat → Char
  | 0 => '0' | 1 => '1' | 2 => '2' | 3 => '3' | 4 => '4'
  | 5 => '5' | 6 => '6' | 7 => '7' | 8 => '8' | 9 => '9'
  | _ => '0'

/-- Big-endian decimal digit list of a natural number. -/
def natToDigits (n : Nat) : List Char :=
  if n < 10 then [digitChar n]
  else natToDigits (n / 10) ++ [digitChar (n % 10)]
termination_by n
decreasing_by exact Nat.div_lt_self (by omega) (by omega)

/-- Numeric value of a digit character. -/
def digitVal (c : Char) : Nat := c.toNat - 48

/-- Value of a big-endian digit list. -/
def digitsVal (l : List Char) : Nat := l.foldl (fun a c => 10 * a + digitVal c) 0

theorem digitsVal_append (l : List Char) (c : Char) :
    digitsVal (l ++ [c]) = 10 * digitsVal l + digitVal c := by
  simp [digitsVal, List.foldl_append]

theorem digitVal_digitChar : ∀ d, d < 10 → digitVal (digitChar d) = d := by decide

theorem digitsVal_natToDigits (n : Nat) : digitsVal (natToDigits n) = n := by
  induction n using Nat.strong_induction_on with
  | _ n ih =>
    rw [natToDigits]
    split
    · rename_i h
      simp [digitsVal, digitVal_digitChar n h]
    · rename_i h
      rw [digitsVal_append, ih (n / 10) (Nat.div_lt_self (by omega) (by omega)),
        digitVal_digitChar _ (Nat.mod_lt _ (by omega))]
      omega

theorem natToDigits_inj {a b : Nat} (h : natToDigits a = natToDigits b) : a = b := by
  rw [← digitsVal_natToDigits a, ← digitsVal_natToDigits b, h]

theorem natToDigits_ne_nil (n : Nat) : natToDigits n ≠ [] := by
  rw [natToDigits]
  split <;> simp

/-- The decimal-suffix string of `n`. -/
def natSuffix (n : Nat) : String := String.mk (natToDigits n)

theorem string_data_append (a b : String) : (a ++ b).data = a.data ++ b.data := rfl

theorem string_ext {a b : String} (h : a.data = b.data) : a = b := by
  cases a; cases b; cases h; rfl

/-- Modelled from the spec: the name supply records every name it has ever
issued during the lowering pass. -/
structure NameSupply where
  issued : List String

/-- The candidate names tried for a base name: the base itself, then the base
with numeric suffixes `1, 2, ...` (one more candidate than there are issued
names, so that one is always fresh). -/
def candidateNames (pfx : String) (n : Nat) : List String :=
  pfx :: (List.range (n + 1)).map (fun k => pfx ++ natSuffix (k + 1))

theorem pfx_ne_append_natSuffix (pfx : String) (k : Nat) :
    pfx ≠ pfx ++ natSuffix k := by
  intro h
  have hd := congrArg String.data h
  rw [string_data_append] at hd
  have hlen : pfx.data.length = pfx.data.length + (natToDigits k).length := by
    simpa [natSuffix, List.length_append] using congrArg List.length hd
  have hz : (natToDigits k).length = 0 := by omega
  exact natToDigits_ne_nil k (List.length_eq_zero.mp hz)

theorem append_natSuffix_inj (pfx : String) {a b : Nat}
    (h : pfx ++ natSuffix a = pfx ++ natSuffix b) : a = b := by
  have hd := congrArg String.data h
  rw [string_data_append, string_data_append] at hd
  exact natToDigits_inj (List.append_cancel_left hd)

theorem candidateNames_nodup (pfx : String) (n : Nat) :
    (candidateNames pfx n).Nodup := by
  refine List.nodup_cons.mpr ⟨?_, ?_⟩
  · intro hmem
    obtain ⟨k, _, hk⟩ := List.mem_map.mp hmem
    exact pfx_ne_append_natSuffix pfx (k + 1) hk.symm
  · refine List.Nodup.map ?_ (List.nodup_range _)
    intro a b hab
    have := append_natSuffix_inj pfx hab
    omega

theorem candidateNames_length (pfx : String) (n : Nat) :
    (candidateNames pfx n).length = n + 2 := by
  simp [candidateNames]

theorem exists_fresh_candidate (pfx : String) (issued : List String) :
    ∃ c ∈ candidateNames pfx issued.length, c ∉ issued := by
  by_contra hcon
  push_neg at hcon
  have hsub : (candidateNames pfx issued.length).toFinset ⊆ issued.toFinset := by
    intro c hc
    exact List.mem_toFinset.mpr (hcon c (List.mem_toFinset.mp hc))
  have h1 : (candidateNames pfx issued.length).toFinset.card
      = issued.length + 2 := by
    rw [List.toFinset_card_of_nodup (candidateNames_nodup pfx issued.length)]
    exact candidateNames_length pfx issued.length
  have h2 : issued.toFinset.card ≤ issued.length := issued.toFinset_card_le
  have h3 := Finset.card_le_card hsub
  omega

/-- Modelled from the spec: `NameSupply.fresh_name` returns the base name
unchanged when it has never been issued, otherwise the base with the first
numeric suffix making it fresh; the returned name is recorded as issued. -/
def fresh_name (ns : NameSupply) (pfx : String) : String × NameSupply :=
  match (candidateNames pfx ns.issued.length).find? (fun c => !(ns.issued.contains c)) with
  | some c => (c, ⟨ns.issued ++ [c]⟩)
  | none => (pfx, ⟨ns.issued ++ [pfx]⟩)

theorem fresh_name_spec (ns : NameSupply) (pfx : String) :
    (fresh_name ns pfx).1 ∉ ns.issued
    ∧ ((fresh_name ns pfx).2).issued = ns.issued ++ [(fresh_name ns pfx).1]
    ∧ ∃ rest, ((fresh_name ns pfx).1).data = pfx.data ++ rest := by
  obtain ⟨c, hc, hcn⟩ := exists_fresh_candidate pfx ns.issued
  have hsome : ((candidateNames pfx ns.issued.length).find?
      (fun c => !(ns.issued.contains c))).isSome := by
    rw [Option.isSome_iff_ne_none]
    intro hnone
    rw [List.find?_eq_none] at hnone
    exact (hnone c hc) (by simpa using hcn)
  obtain ⟨c₀, hc₀⟩ := Option.isSome_iff_exists.mp hsome
  have hmem := List.mem_of_find?_eq_some hc₀
  have hpred := List.find?_some hc₀
  have hnotin : c₀ ∉ ns.issued := by simpa using hpred
  have hres : fresh_name ns pfx = (c₀, ⟨ns.issued ++ [c₀]⟩) := by
    unfold fresh_name
    rw [hc₀]
  refine ⟨by rw [hres]; exact hnotin, by rw [hres], ?_⟩
  rw [hres]
  rcases List.mem_cons.mp hmem with h | h
  · exact ⟨[], by simp [h]⟩
  · obtain ⟨k, _, hk⟩ := List.mem_map.mp h
    exact ⟨natToDigits (k + 1), by rw [← hk, string_data_append]; rfl⟩

/-- Python `name.replace(".", "_")`: with a single-character pattern this is a
character-wise substitution. -/
def replaceDots (s : String) : String :=
  String.mk (s.data.map (fun c => if c = '.' then '_' else c))

/-- Model of `ONNXGraphImporter._sanitize_name`: the empty name gets a fresh
`"empty_"`-prefixed identifier; otherwise dots become underscores, a name not
starting with a letter (ASCII fragment of Python's `isalpha`) or underscore
is prefixed with `"input_"`, and the result is uniquified by the name
supply. -/
def sanitize_name (ns : NameSupply) (name : String) : String × NameSupply :=
  if name = "" then fresh_name ns "empty_"
  else
    let new_name := replaceDots name
    let c0 := new_name.data.headD 'x'
    if ¬ c0.isAlpha ∧ c0 ≠ '_' then fresh_name ns ("input_" ++ new_name)
    else fresh_name ns new_name

/-! ### Graph parsing (`_parse_graph_initializers`, `_parse_graph_input`) -/

/-- Python `str.strip()`: drop leading and trailing whitespace. -/
def pyStrip (s : String) : String :=
  String.mk (((s.data.dropWhile Char.isWhitespace).reverse.dropWhile
    Char.isWhitespace).reverse)

/-- Model of `ONNXGraphImporter._parse_graph_initializers`: a whitespace-only name is a
`ValueError`; otherwise the tensor is bound as a `relax.const`. -/
def parse_graph_initializers_from : Env → List (String × List Int) → Except Err Env
  | env, [] => .ok env
  | env, (n, data) :: rest =>
    if pyStrip n = "" then .error .emptyInitName
    else parse_graph_initializers_from (dictInsert env n (.const data)) rest

/-- Initializer parsing starting from the fresh importer environment. -/
def parse_graph_initializers (inits : List (String × List Int)) : Except Err Env :=
  parse_graph_initializers_from [] inits

/-- A declared graph input (`ValueInfoProto`): name, shape, and the declared
element type (`none` when unset in the model). -/
structure GraphInput where
  name : String
  shape : List Int
  elemType : Option String

/-- The caller's `dtype_dict` argument: either a single type string or a
per-name map. -/
inductive DtypeSpec where
  | single (t : String)
  | map (m : List (String × String))

/-- The dtype computation of `_parse_graph_input`: with a per-name map, the
mapped type when the input is listed and the declared type otherwise; with
anything else (the single-string form), the declared type. -/
def chooseDtype (dt : DtypeSpec) (n : String) (declared : Option String) : Option String :=
  match dt with
  | .map m =>
    match m.find? (fun p => p.1 == n) with
    | some p => some p.2
    | none => declared
  | .single _ => declared

/-- The importer state threaded through `_parse_graph_input`: `self._nodes`,
`self._inputs`, `self._input_names`, `self._num_input`, and the name
supply. -/
structure InState where
  nodes : Env
  inputsD : Env
  input_names : List String
  num_input : Nat
  supply : NameSupply

/-- One iteration of `_parse_graph_input`: a name already bound (an
initializer) is not re-declared; otherwise a fresh parameter variable is
created (shape override, dtype computation, optional name sanitization) and
bound. Both paths finish with `self._inputs[i_name] = self._nodes[i_name]`. -/
def parse_input_one (dt : DtypeSpec) (shape_dict : List (String × List Int))
    (san : Bool) (st : InState) (gi : GraphInput) : InState :=
  match dictGet st.nodes gi.name with
  | some v =>
    -- already bound (an initializer): only `self._inputs[i_name] = self._nodes[i_name]`
    { st with inputsD := dictInsert st.inputsD gi.name v }
  | none =>
    -- fresh parameter; the shape override from `shape_dict` only affects the
    -- variable's shape, which the claims do not observe
    let dtype := chooseDtype dt gi.name gi.elemType
    let vs := if san then sanitize_name st.supply gi.name else (gi.name, st.supply)
    let newv : EValue := .var vs.1 .tensorInfo dtype
    { st with
      nodes := dictInsert st.nodes gi.name newv
      inputsD := dictInsert st.inputsD gi.name newv
      input_names := st.input_names ++ [gi.name]
      num_input := st.num_input + 1
      supply := vs.2 }

/-- Model of `ONNXGraphImporter._parse_graph_input` over the declared inputs. -/
def parse_graph_input (dt : DtypeSpec) (shape_dict : List (String × List Int))
    (san : Bool) (env0 : Env) (supply : NameSupply)
    (gins : List GraphInput) : InState :=
  gins.foldl (parse_input_one dt shape_dict san)
    ⟨env0, [], [], 0, supply⟩

/-- The parameter names of the finalized function:
`[v for k, v in self._inputs.items() if isinstance(v, relax.Var)]`. -/
def paramNames (st : InState) : List String :=
  (st.inputsD.filter (fun p => isVar p.2)).map (·.1)

/-- First-seen-order deduplication of a name list. -/
def firstOcc (l : List String) : List String :=
  l.foldl (fun acc n => if n ∈ acc then acc else acc ++ [n]) []

/-! ### The driver (`ONNXGraphImporter.from_onnx`) -/

/-- An ONNX `GraphProto` as consumed by the importer. -/
structure Graph where
  initializer : List (String × List Int)
  input : List GraphInput
  node : List Node
  output : List String

/-- Resolution of the declared graph outputs
(`self._nodes[self._parse_value_proto(i)]`). -/
def resolveOutputs (env : Env) : List String → Except Err (List EValue)
  | [] => .ok []
  | n :: rest =>
    match dictGet env n with
    | some v =>
      match resolveOutputs env rest with
      | .ok tl => .ok (v :: tl)
      | .error e => .error e
    | none => .error (.keyError n)

/-- Model of `ONNXGraphImporter.from_onnx`: parse initializers, parse inputs, check
for unsupported operators, construct the nodes, resolve the declared outputs
(a single value, or a `relax.Tuple` of them), and finalize with the
parameters collected in first-seen order. The result models the pair of the
emitted function's parameter names and its output expression. -/
def from_onnx (impl : ConvImpl) (dt : DtypeSpec)
    (shape_dict : List (String × List Int)) (san : Bool)
    (g : Graph) (opset : Nat) : Except Err (List String × EValue) :=
  match parse_graph_initializers g.initializer with
  | .error e => .error e
  | .ok env0 =>
    let st := parse_graph_input dt shape_dict san env0 ⟨[]⟩ g.input
    match check_for_unsupported_ops (g.node.map (·.op_type)) with
    | .error e => .error e
    | .ok _ =>
      match construct_nodes impl opset st.nodes g.node with
      | .error e => .error e
      | .ok env =>
        match resolveOutputs env g.output with
        | .error e => .error e
        | .ok outs =>
          .ok (paramNames st, match outs with | [o] => o | os => .tupleV os)

/-! ## Supporting lemmas -/

theorem filterMap_range_get {α : Type} (l : List α) (s0 : Nat) :
    ((List.range l.length).drop s0).filterMap (fun i => l[i]?) = l.drop s0 := by
  induction l generalizing s0 with
  | nil => simp
  | cons a tl ih =>
    have hfun : ∀ xs : List Nat,
        (xs.map Nat.succ).filterMap (fun i => (a :: tl)[i]?)
          = xs.filterMap (fun i => tl[i]?) := by
      intro xs
      rw [List.filterMap_map]
      have : ((fun i => (a :: tl)[i]?) ∘ Nat.succ) = fun i => tl[i]? := by
        funext i
        simp
      rw [this]
    cases s0 with
    | zero =>
      rw [List.length_cons, List.range_succ_eq_map, List.drop_zero]
      have h0 := ih 0
      rw [List.drop_zero] at h0
      simp [List.filterMap_cons, hfun, h0]
    | succ k =>
      rw [List.length_cons, List.range_succ_eq_map, List.drop_succ_cons,
        ← List.map_drop, hfun, ih k, List.drop_succ_cons]

/-! ## The claims -/

/-- C1 (status: code bug). The claim — backed by `get_converter`'s own
docstring ("the biggest number smaller than or equal to opset") — requires a
requested opset strictly below every registered version to fail with an
unsupported-version error.  The code instead returns the converter for the
*largest* registered version: with `opset` below every registered version,
the inserted `opset` sorts to position 0, `max(...) - 1` is `-1`, and Python
list indexing wraps around to the last element.  Concretely, `MatMul`
registers only version 13, yet `get_converter` at opset 1 selects version 13
(and `Div`, registering only version 14, selects 14 at opset 13); the
exact-match case behaves as specified. -/
theorem C1_get_converter_below_min_returns_max :
    get_converter (registered_versions "MatMul") 13 = some 13
    ∧ get_converter (registered_versions "MatMul") 1 = some 13
    ∧ get_converter (registered_versions "Div") 13 = some 14
    ∧ get_converter (registered_versions "Div") 14 = some 14 := by
  refine ⟨by decide, by decide, by decide, by decide⟩

/-- C9 (status: code bug). When `dtype_dict` is a single type string, the
`else` branch of `_parse_graph_input` uses the declared type `d_type`
unchanged and never consults the override, so an input with unset element
type keeps `None` instead of receiving the single type; the per-name map
branch works as claimed.  The last conjunct evaluates the full input-parsing
step: the created parameter variable records dtype `none`, not the
override. -/
theorem C9_single_dtype_override_ignored :
    chooseDtype (.single "float16") "x" none = none
    ∧ chooseDtype (.single "float16") "x" none ≠ some "float16"
    ∧ chooseDtype (.map [("x", "float16")]) "x" none = some "float16"
    ∧ chooseDtype (.map [("x", "float16")]) "y" (some "int64") = some "int64"
    ∧ (parse_input_one (.single "float16") [] false ⟨[], [], [], 0, ⟨[]⟩⟩
        ⟨"x", [1], none⟩).nodes = [("x", .var "x" .tensorInfo none)] := by
  exact ⟨by decide, by decide, by decide, by decide, rfl⟩

/-- C10 (status: confirmed). `onnx_input.__getitem__` is total for integer
reads at or past the length (returning `None` rather than raising), and a
slice with no stop bound is truncated at the length: it returns a suffix of
the list (all of it when no start is given), never reading past the end. -/
theorem C10_onnx_input_total {α : Type} (l : List α) :
    (∀ i : Int, (l.length : Int) ≤ i → onnx_input_get l i = .ok none)
    ∧ (∀ start : Option Int, ∃ k, onnx_input_slice_noStop l start = l.drop k)
    ∧ onnx_input_slice_noStop l none = l := by
  refine ⟨?_, ?_, ?_⟩
  · intro i hi
    unfold onnx_input_get
    rw [if_neg (show ¬ i < (l.length : Int) by omega)]
  · intro start
    refine ⟨?_, ?_⟩
    · exact match start with
        | none => 0
        | some s => if 0 ≤ s then min s.toNat l.length else (s + (l.length : Int)).toNat
    · cases start <;> exact filterMap_range_get l _
  · simpa [onnx_input_slice_noStop] using filterMap_range_get l 0

/-- Witness for C10 at concrete inputs: reading index 7 of a two-element
operand list yields `None`, and the stopless slice from 1 is the suffix. -/
theorem C10_onnx_input_total_witness :
    onnx_input_get ["a", "b"] (7 : Int) = .ok none
    ∧ ∃ k, onnx_input_slice_noStop ["a", "b", "c"] (some 1)
        = List.drop k ["a", "b", "c"] :=
  ⟨(C10_onnx_input_total ["a", "b"]).1 7 (by decide),
   (C10_onnx_input_total ["a", "b", "c"]).2.1 (some 1)⟩

/-- C8 counterexample (the claim is false as stated): binding the node
output `"x"` when `"x"` is already bound is *not* a fatal error — it
succeeds and silently replaces the previous value. -/
theorem C8_rebind_counterexample :
    bindOutputs [("x", .const [1])] ["x"] (.one (.const [2]))
      = .ok [("x", .const [2])] := rfl

/-- C8 amended (status: corrected): `_construct_nodes` performs no rebinding
check — `self._nodes[outputs[0]] = op` always succeeds and the name
afterwards maps to the new value, silently overwriting any previous binding;
single static assignment therefore relies on the input graph's names being
unique, and is not enforced. -/
theorem C8_rebind_silently_overwrites (env : Env) (n : String) (w : EValue) :
    bindOutputs env [n] (.one w) = .ok (dictInsert env n w)
    ∧ dictGet (dictInsert env n w) n = some w :=
  ⟨rfl, dictGet_dictInsert_self env n w⟩

/-- C7 counterexample (the claim is false as stated): a node declaring zero
outputs does not declare more outputs than the single value produced, yet
binding fails with an `IndexError` (from `outputs[0]`) instead of binding
nothing. -/
theorem C7_zero_output_counterexample :
    ([] : List String).length ≤ outputsNum (.one (.const [0]))
    ∧ bindOutputs [] [] (.one (.const [0])) = .error .indexError :=
  ⟨by decide, rfl⟩

/-- The value a fold of dict assignments leaves under a key: the last
assignment with that key wins. -/
def lookupLast : List (String × EValue) → String → Option EValue
  | [], _ => none
  | p :: rest, k =>
    match lookupLast rest k with
    | some v => some v
    | none => if p.1 = k then some p.2 else none

theorem lookupLast_eq_none_of_not_mem (ps : List (String × EValue)) (k : String)
    (h : ∀ p ∈ ps, p.1 ≠ k) : lookupLast ps k = none := by
  induction ps with
  | nil => rfl
  | cons p rest ih =>
    have hrest := ih (fun q hq => h q (List.mem_cons_of_mem p hq))
    simp [lookupLast, hrest, h p (List.mem_cons_self p rest)]

theorem dictGet_foldlInsert (ps : List (String × EValue)) (env : Env) (k : String) :
    dictGet (ps.foldl (fun e kv => dictInsert e kv.1 kv.2) env) k
      = match lookupLast ps k with
        | some v => some v
        | none => dictGet env k := by
  induction ps generalizing env with
  | nil => rfl
  | cons p rest ih =>
    rw [List.foldl_cons, ih]
    cases hrest : lookupLast rest k with
    | some v => simp [lookupLast, hrest]
    | none =>
      by_cases hp : p.1 = k
      · simp [lookupLast, hrest, hp, hp ▸ dictGet_dictInsert_self env p.1 p.2]
      · simp [lookupLast, hrest, hp, dictGet_dictInsert_ne env p.1 k p.2 (Ne.symm hp)]

theorem lookupLast_zip_of_lastOcc (ks : List String) (vs : List EValue)
    (i : Nat) (name : String) (hk : ks[i]? = some name)
    (hlast : ∀ j, i < j → ks[j]? ≠ some name)
    (hlen : ks.length ≤ vs.length) :
    lookupLast (ks.zip vs) name = vs[i]? := by
  induction ks generalizing vs i with
  | nil => simp at hk
  | cons k ktl ih =>
    cases vs with
    | nil => simp at hlen
    | cons v vtl =>
      have hlen' : ktl.length ≤ vtl.length := by simpa using hlen
      cases i with
      | zero =>
        have hkn : k = name := by simpa using hk
        subst hkn
        have hnone : lookupLast (ktl.zip vtl) k = none := by
          apply lookupLast_eq_none_of_not_mem
          intro p hp hpk
          obtain ⟨hp1, _⟩ := List.of_mem_zip hp
          obtain ⟨j, hj, hje⟩ := List.getElem_of_mem hp1
          exact hlast (j + 1) (by omega)
            (by rw [List.getElem?_cons_succ, List.getElem?_eq_getElem hj, hje, hpk])
        rw [List.zip_cons_cons, List.getElem?_cons_zero]
        simp [lookupLast, hnone]
      | succ i =>
        have hki : ktl[i]? = some name := by simpa using hk
        have hlast' : ∀ j, i < j → ktl[j]? ≠ some name := by
          intro j hj
          have := hlast (j + 1) (by omega)
          simpa using this
        have hvi := ih vtl i hki hlast' hlen'
        have hisome : vtl[i]? ≠ none := by
          have hilen : i < ktl.length := by
            by_contra hcon
            rw [List.getElem?_eq_none (by omega)] at hki
            cases hki
          rw [List.getElem?_eq_getElem (by omega : i < vtl.length)]
          simp
        cases hv : vtl[i]? with
        | none => exact absurd hv hisome
        | some w =>
          rw [hv] at hvi
          rw [List.zip_cons_cons, List.getElem?_cons_succ, hv]
          simp [lookupLast, hvi]

/-- C7 amended (status: corrected): for a node declaring *at least one*
output, `_construct_nodes` fails with the output-arity assertion when the
node declares more outputs than the converter result provides, and otherwise
binds each declared output name positionally to the corresponding result
component (the last occurrence winning for a repeated name).  The claim as
stated fails only for a node declaring zero outputs while the converter
produced a single value, which raises an `IndexError` instead
(`C7_zero_output_counterexample`). -/
theorem C7_output_arity (env : Env) (outputs : List String) (res : ConvRes)
    (hne : outputs ≠ []) :
    (outputsNum res < outputs.length →
      bindOutputs env outputs res
        = .error (.arityMismatch outputs.length (outputsNum res)))
    ∧ (outputs.length ≤ outputsNum res →
      ∃ env', bindOutputs env outputs res = .ok env'
        ∧ ∀ i name, outputs[i]? = some name →
            (∀ j, i < j → outputs[j]? ≠ some name) →
            dictGet env' name = resComponent res i) := by
  constructor
  · intro hlt
    unfold bindOutputs
    rw [if_neg (by omega)]
  · intro hle
    unfold bindOutputs
    rw [if_pos hle]
    by_cases h1 : outputsNum res = 1
    · rw [if_pos h1]
      obtain ⟨o, outputs', rfl⟩ := List.exists_cons_of_ne_nil hne
      have houts : outputs' = [] := by
        have h2 := hle
        rw [h1, List.length_cons] at h2
        exact List.length_eq_zero.mp (by omega)
      subst houts
      refine ⟨dictInsert env o (resultValue res), rfl, ?_⟩
      intro i name hk _
      cases i with
      | zero =>
        have : o = name := by simpa using hk
        subst this
        rw [dictGet_dictInsert_self]
        simp [resComponent, h1]
      | succ i => simp at hk
    · rw [if_neg h1]
      cases res with
      | one v => simp [outputsNum] at h1
      | many vs =>
        refine ⟨_, rfl, ?_⟩
        intro i name hk hlast
        have hlen : outputs.length ≤ vs.length := by simpa [outputsNum] using hle
        rw [dictGet_foldlInsert,
          lookupLast_zip_of_lastOcc outputs vs i name hk hlast hlen]
        have hilen : i < outputs.length := by
          by_contra hcon
          rw [List.getElem?_eq_none (by omega)] at hk
          cases hk
        rw [List.getElem?_eq_getElem (by omega : i < vs.length)]
        have hvs : ¬ vs.length = 1 := by simpa [outputsNum] using h1
        simp [resComponent, outputsNum, hvs,
          List.getElem?_eq_getElem (by omega : i < vs.length)]

/-- Witness for C7 at a concrete input: a node declaring two outputs while
the converter produced one value fails with the arity error, and a node
declaring one output binds it to the produced value. -/
theorem C7_output_arity_witness :
    bindOutputs [] ["o1", "o2"] (.one (.const [5]))
      = .error (.arityMismatch 2 1)
    ∧ ∃ env', bindOutputs [] ["o1"] (.one (.const [5])) = .ok env'
        ∧ ∀ i name, (["o1"] : List String)[i]? = some name →
            (∀ j, i < j → (["o1"] : List String)[j]? = some name → False) →
            dictGet env' name = resComponent (.one (.const [5])) i := by
  constructor
  · exact (C7_output_arity [] ["o1", "o2"] (.one (.const [5])) (by simp)).1
      (by decide)
  · obtain ⟨env', h1, h2⟩ := (C7_output_arity [] ["o1"] (.one (.const [5]))
      (by simp)).2 (by decide)
    exact ⟨env', h1, fun i name hk hl => h2 i name hk (fun j hj => hl j hj)⟩

/-- C3 (status: confirmed). The allow-list is exactly the five operators
Reshape, ConstantOfShape, Gather, Slice, Expand; the guard fires exactly when
some resolved (non-absent) operand has shape struct info and the operator is
not on the list; and a firing guard makes conversion of that node fail with
the `ValueError`.  (Conversely, for an operator on the list the guard can
never reject, whatever the operands.) -/
theorem C3_shape_operand_guard :
    shape_compatible_ops = ["Reshape", "ConstantOfShape", "Gather", "Slice", "Expand"]
    ∧ (∀ (op : String) (inputs : List (Option EValue)),
        shapeReject op inputs = true ↔
          (op ∉ shape_compatible_ops
            ∧ ∃ v, some v ∈ inputs ∧ structInfoOf v = .shapeInfo))
    ∧ (∀ (impl : ConvImpl) (opset : Nat) (env : Env) (nd : Node)
        (rest : List Node) (ins : List (Option EValue)),
        resolve_inputs env nd.input = .ok ins →
        shapeReject nd.op_type ins = true →
        construct_nodes impl opset env (nd :: rest)
          = .error (.shapeExprError nd.name)) := by
  refine ⟨rfl, ?_, ?_⟩
  · intro op inputs
    constructor
    · intro h
      obtain ⟨x, hx, hpx⟩ := List.any_eq_true.mp h
      cases x with
      | none => simp at hpx
      | some v =>
        simp only [Bool.and_eq_true, beq_iff_eq, Bool.not_eq_true'] at hpx
        exact ⟨by simpa using hpx.2, v, hx, hpx.1⟩
    · rintro ⟨hop, v, hv, hsi⟩
      apply List.any_eq_true.mpr
      refine ⟨some v, hv, ?_⟩
      simp only [Bool.and_eq_true, beq_iff_eq, Bool.not_eq_true']
      exact ⟨hsi, by simpa using hop⟩
  · intro impl opset env nd rest ins h1 h2
    unfold construct_nodes
    rw [h1]
    simp [h2]

/-- Witness for C3 at a concrete input: a `ShapeExpr` operand flowing into an
`Add` node makes that node's conversion fail with the `ValueError`, and the
guard stays silent for the same operand flowing into `Reshape`. -/
theorem C3_shape_operand_guard_witness :
    construct_nodes (fun _ _ _ => .error .typeError) 13
      [("s", .shapeExpr [2, 3])]
      [{ op_type := "Add", name := "n0", input := ["s"], output := ["o"] }]
      = .error (.shapeExprError "n0")
    ∧ shapeReject "Reshape" [some (.shapeExpr [2, 3])] = false := by
  constructor
  · exact C3_shape_operand_guard.2.2 (fun _ _ _ => .error .typeError) 13
      [("s", .shapeExpr [2, 3])]
      { op_type := "Add", name := "n0", input := ["s"], output := ["o"] }
      [] [some (.shapeExpr [2, 3])] rfl rfl
  · have h := C3_shape_operand_guard.2.1 "Reshape" [some (.shapeExpr [2, 3])]
    rw [Bool.eq_false_iff]
    intro hcon
    exact (h.mp hcon).1 (by decide)

/-- Membership in `unsupportedAux`: an operator name ends up in the
accumulated list exactly when it was already there or occurs in the node
list, is not a registry key, and is not `"Constant"`. -/
theorem mem_unsupportedAux (ops : List String) : ∀ (acc : List String) (q : String),
    q ∈ unsupportedAux ops acc
      ↔ q ∈ acc ∨ (q ∈ ops ∧ q ∉ convert_map ∧ q ≠ "Constant") := by
  induction ops with
  | nil => intro acc q; simp [unsupportedAux]
  | cons op rest ih =>
    intro acc q
    unfold unsupportedAux
    by_cases h : op ∈ convert_map ∨ op = "Constant" ∨ op ∈ acc
    · rw [if_pos h, ih]
      by_cases hq : q = op
      · subst hq
        constructor
        · rintro (h1 | h1)
          · exact Or.inl h1
          · exact Or.inr ⟨List.mem_cons_of_mem _ h1.1, h1.2⟩
        · rintro (h1 | h1)
          · exact Or.inl h1
          · rcases h with h | h | h
            · exact absurd h h1.2.1
            · exact absurd h h1.2.2
            · exact Or.inl h
      · constructor
        · rintro (h1 | h1)
          · exact Or.inl h1
          · exact Or.inr ⟨List.mem_cons_of_mem _ h1.1, h1.2⟩
        · rintro (h1 | h1)
          · exact Or.inl h1
          · exact Or.inr ⟨(List.mem_cons.mp h1.1).resolve_left hq, h1.2⟩
    · rw [if_neg h, ih]
      push_neg at h
      by_cases hq : q = op
      · subst hq
        constructor
        · intro _
          exact Or.inr ⟨List.mem_cons_self _ _, h.1, h.2.1⟩
        · intro _
          exact Or.inl (List.mem_append.mpr (Or.inr (List.mem_singleton.mpr rfl)))
      · simp only [List.mem_append, List.mem_singleton, hq, or_false]
        constructor
        · rintro (h1 | h1)
          · exact Or.inl h1
          · exact Or.inr ⟨List.mem_cons_of_mem _ h1.1, h1.2⟩
        · rintro (h1 | h1)
          · exact Or.inl h1
          · exact Or.inr ⟨(List.mem_cons.mp h1.1).resolve_left hq, h1.2⟩

/-- Lemma: `unsupportedAux` preserves distinctness of the accumulator. -/
theorem nodup_unsupportedAux (ops : List String) : ∀ acc : List String,
    acc.Nodup → (unsupportedAux ops acc).Nodup := by
  induction ops with
  | nil => intro acc h; exact h
  | cons op rest ih =>
    intro acc h
    unfold unsupportedAux
    by_cases hc : op ∈ convert_map ∨ op = "Constant" ∨ op ∈ acc
    · rw [if_pos hc]
      exact ih acc h
    · rw [if_neg hc]
      push_neg at hc
      refine ih (acc ++ [op]) ?_
      rw [List.nodup_append]
      exact ⟨h, List.nodup_singleton op, by simpa using hc.2.2⟩

/-- C2 (status: confirmed). Whenever some node's operator name is absent
from the converter registry, lowering fails — before any node is converted,
whatever the converter table would do — with a single error listing exactly
the distinct unsupported operator names of the whole graph.  (The code also
exempts the name `"Constant"` from the check, but `"Constant"` is a registry
key, so the exemption never changes the reported set.) -/
theorem C2_unsupported_ops_single_error (impl : ConvImpl) (dt : DtypeSpec)
    (sd : List (String × List Int)) (san : Bool) (opset : Nat)
    (g : Graph) (env0 : Env)
    (h0 : parse_graph_initializers g.initializer = .ok env0)
    (nd : Node) (hnd : nd ∈ g.node) (hop : nd.op_type ∉ convert_map) :
    ∃ u, from_onnx impl dt sd san g opset = .error (.unsupportedOps u)
      ∧ u.Nodup
      ∧ ∀ q, q ∈ u ↔ ((∃ m ∈ g.node, m.op_type = q) ∧ q ∉ convert_map) := by
  have hconst : ("Constant" : String) ∈ convert_map := by decide
  have hmem : ∀ q, q ∈ unsupported_ops (g.node.map (·.op_type))
      ↔ ((∃ m ∈ g.node, m.op_type = q) ∧ q ∉ convert_map) := by
    intro q
    rw [unsupported_ops, mem_unsupportedAux]
    simp only [List.not_mem_nil, false_or]
    constructor
    · rintro ⟨h1, h2, _⟩
      obtain ⟨m, hm, hmq⟩ := List.mem_map.mp h1
      exact ⟨⟨m, hm, hmq⟩, h2⟩
    · rintro ⟨⟨m, hm, hmq⟩, h2⟩
      refine ⟨List.mem_map.mpr ⟨m, hm, hmq⟩, h2, ?_⟩
      intro hq
      rw [hq] at h2
      exact h2 hconst
  have hne : unsupported_ops (g.node.map (·.op_type)) ≠ [] := by
    intro hnil
    have := (hmem nd.op_type).mpr ⟨⟨nd, hnd, rfl⟩, hop⟩
    rw [hnil] at this
    cases this
  refine ⟨unsupported_ops (g.node.map (·.op_type)), ?_, ?_, hmem⟩
  · unfold from_onnx
    rw [h0]
    have hchk : check_for_unsupported_ops (g.node.map (·.op_type))
        = .error (.unsupportedOps (unsupported_ops (g.node.map (·.op_type)))) := by
      unfold check_for_unsupported_ops
      rw [if_neg hne]
    rw [hchk]
  · exact nodup_unsupportedAux _ [] List.nodup_nil

/-- A node whose operator is absent from the registry. -/
def fooNode : Node := ⟨"FooOp", "n0", [], ["o"]⟩

/-- A second node with a different unregistered operator. -/
def barNode : Node := ⟨"BarOp", "n1", [], ["p"]⟩

/-- A graph carrying two distinct unregistered operators. -/
def unsupportedGraph : Graph := ⟨[], [], [fooNode, barNode], []⟩

/-- Witness for C2 at a concrete graph: two nodes with unregistered
operators `FooOp` and `BarOp` make lowering fail with one error whose name
list contains both. -/
theorem C2_unsupported_ops_single_error_witness :
    ∃ u, from_onnx (fun _ _ _ => .error .typeError) (.single "float32") [] true
        unsupportedGraph 13 = .error (.unsupportedOps u)
      ∧ u.Nodup
      ∧ ∀ q, q ∈ u ↔ ((∃ m ∈ unsupportedGraph.node, m.op_type = q)
          ∧ q ∉ convert_map) :=
  C2_unsupported_ops_single_error (fun _ _ _ => .error .typeError)
    (.single "float32") [] true 13 unsupportedGraph [] rfl
    fooNode (List.mem_cons_self _ _) (by decide)

/-- The converter table restricted to the faithfully modelled
`Add._impl_v13`. -/
def addOnlyImpl : ConvImpl := fun op v inputs =>
  match op, v with
  | "Add", 13 => Add_impl_v13 inputs
  | _, _ => .error .typeError

/-- The claim's scenario graph: one `Add` node over the two initializer
tensors `[1, 2]` and `[3, 4]`, whose single output is the declared graph
output. -/
def addFoldGraph : Graph :=
  { initializer := [("a", [1, 2]), ("b", [3, 4])]
    input := []
    node := [{ op_type := "Add", name := "add0", input := ["a", "b"], output := ["c"] }]
    output := ["c"] }

/-- C6 (status: confirmed). Lowering the scenario graph produces a function
with zero parameters whose output is the single folded constant `[4, 6]` (no
runtime add is emitted — the output is a `Constant`, not a variable); and in
general `Add._impl_v13` folds to a constant whenever both operands are
constants (elementwise addition on equal shapes). -/
theorem C6_add_constant_folding :
    from_onnx addOnlyImpl (.single "float32") [] true addFoldGraph 13
      = .ok ([], .const [4, 6])
    ∧ ∀ xs ys : List Int, xs.length = ys.length →
        Add_impl_v13 [some (.const xs), some (.const ys)]
          = .ok (.one (.const (List.zipWith (· + ·) xs ys))) := by
  constructor
  · rfl
  · intro xs ys h
    unfold Add_impl_v13
    rw [if_pos (by simp [List.all_cons])]
    show (match np_add xs ys with
      | .ok r => Except.ok (ConvRes.one (.const r))
      | .error e => Except.error e)
      = .ok (.one (.const (List.zipWith (· + ·) xs ys)))
    unfold np_add
    rw [if_pos h]

/-- Witness for C6's folding rule at a concrete input: adding the constant
tensors `[1, 2]` and `[3, 4]` folds to the constant `[4, 6]`. -/
theorem C6_add_constant_folding_witness :
    Add_impl_v13 [some (.const [1, 2]), some (.const [3, 4])]
      = .ok (.one (.const [4, 6])) := by
  have h := C6_add_constant_folding.2 [1, 2] [3, 4] rfl
  simpa using h

/-- Every branch of `_sanitize_name` delegates to `fresh_name` on some
base string. -/
theorem sanitize_eq_fresh (ns : NameSupply) (name : String) :
    ∃ pfx, sanitize_name ns name = fresh_name ns pfx := by
  unfold sanitize_name
  split
  · exact ⟨_, rfl⟩
  · dsimp only
    split
    · exact ⟨_, rfl⟩
    · exact ⟨_, rfl⟩

/-- A sanitized name is fresh for the supply, and the supply records it. -/
theorem sanitize_name_fresh (ns : NameSupply) (name : String) :
    (sanitize_name ns name).1 ∉ ns.issued
    ∧ ((sanitize_name ns name).2).issued
        = ns.issued ++ [(sanitize_name ns name).1] := by
  obtain ⟨pfx, hp⟩ := sanitize_eq_fresh ns name
  rw [hp]
  exact ⟨(fresh_name_spec ns pfx).1, (fresh_name_spec ns pfx).2.1⟩

/-- C5 (status: confirmed, with the external `NameSupply` modelled from the
spec). The sanitized name is nonempty; begins with a letter (ASCII fragment
of Python's `isalpha`) or an underscore; is distinct from every name
previously issued by the same supply — so a second sanitization by the same
supply can never collide with it; and the empty raw name receives an
`"empty_"`-prefixed generated identifier. -/
theorem C5_sanitize_name_valid_unique (ns : NameSupply) (name : String) :
    (sanitize_name ns name).1 ∉ ns.issued
    ∧ ((sanitize_name ns name).2).issued
        = ns.issued ++ [(sanitize_name ns name).1]
    ∧ (∃ c tl, ((sanitize_name ns name).1).data = c :: tl
        ∧ (c.isAlpha = true ∨ c = '_'))
    ∧ (name = "" → ∃ rest, ((sanitize_name ns name).1).data
        = "empty_".data ++ rest)
    ∧ (∀ name₂ : String,
        (sanitize_name ((sanitize_name ns name).2) name₂).1
          ≠ (sanitize_name ns name).1) := by
  refine ⟨(sanitize_name_fresh ns name).1, (sanitize_name_fresh ns name).2,
    ?_, ?_, ?_⟩
  · by_cases hname : name = ""
    · subst hname
      have hs : sanitize_name ns "" = fresh_name ns "empty_" := rfl
      rw [hs]
      obtain ⟨rest, hrest⟩ := (fresh_name_spec ns "empty_").2.2
      refine ⟨'e', "mpty_".data ++ rest, ?_, Or.inl (by decide)⟩
      rw [hrest]
      rfl
    · have hdata : (replaceDots name).data ≠ [] := by
        intro h0
        apply hname
        apply string_ext
        have hmap : name.data.map (fun c => if c = '.' then '_' else c) = [] := h0
        rw [List.map_eq_nil_iff.mp hmap]
      obtain ⟨c0, tl0, hcons⟩ := List.exists_cons_of_ne_nil hdata
      have hhead : (replaceDots name).data.headD 'x' = c0 := by
        rw [hcons]
        rfl
      by_cases hcond : ¬ ((replaceDots name).data.headD 'x').isAlpha
          ∧ (replaceDots name).data.headD 'x' ≠ '_'
      · have hs : sanitize_name ns name
            = fresh_name ns ("input_" ++ replaceDots name) := by
          simp only [sanitize_name, if_neg hname, if_pos hcond]
        rw [hs]
        obtain ⟨rest, hrest⟩ :=
          (fresh_name_spec ns ("input_" ++ replaceDots name)).2.2
        refine ⟨'i', "nput_".data ++ (replaceDots name).data ++ rest, ?_,
          Or.inl (by decide)⟩
        rw [hrest, string_data_append]
        rfl
      · have hs : sanitize_name ns name = fresh_name ns (replaceDots name) := by
          simp only [sanitize_name, if_neg hname, if_neg hcond]
        rw [hs]
        obtain ⟨rest, hrest⟩ := (fresh_name_spec ns (replaceDots name)).2.2
        refine ⟨c0, tl0 ++ rest, ?_, ?_⟩
        · rw [hrest, hcons]
          rfl
        · rw [hhead] at hcond
          by_cases ha : c0.isAlpha
          · exact Or.inl ha
          · push_neg at hcond
            exact Or.inr (hcond (by simpa using ha))
  · intro hname
    subst hname
    have hs : sanitize_name ns "" = fresh_name ns "empty_" := rfl
    rw [hs]
    exact (fresh_name_spec ns "empty_").2.2
  · intro name₂
    have h2 := (sanitize_name_fresh ((sanitize_name ns name).2) name₂).1
    rw [(sanitize_name_fresh ns name).2] at h2
    intro heq
    apply h2
    rw [heq]
    exact List.mem_append.mpr (Or.inr (List.mem_singleton.mpr rfl))

/-- Witness for C5 at concrete inputs: sanitizing the empty name against a
supply that already issued `"x"` yields a fresh `"empty_"`-prefixed
identifier that starts with a letter. -/
theorem C5_sanitize_name_valid_unique_witness :
    (sanitize_name ⟨["x"]⟩ "").1 ∉ ["x"]
    ∧ (∃ c tl, ((sanitize_name ⟨["x"]⟩ "").1).data = c :: tl
        ∧ (c.isAlpha = true ∨ c = '_'))
    ∧ (∃ rest, ((sanitize_name ⟨["x"]⟩ "").1).data = "empty_".data ++ rest) :=
  ⟨(C5_sanitize_name_valid_unique ⟨["x"]⟩ "").1,
   (C5_sanitize_name_valid_unique ⟨["x"]⟩ "").2.2.1,
   (C5_sanitize_name_valid_unique ⟨["x"]⟩ "").2.2.2.1 rfl⟩

/-! ### Dictionary and first-occurrence lemmas for C4 -/

theorem mem_dictInsert (d : Env) (k : String) (v : EValue) (p : String × EValue)
    (h : p ∈ dictInsert d k v) : p ∈ d ∨ p = (k, v) := by
  induction d with
  | nil => simpa [dictInsert] using h
  | cons q rest ih =>
    by_cases hq : q.1 = k
    · rw [dictInsert, if_pos hq] at h
      rcases List.mem_cons.mp h with h | h
      · exact Or.inr h
      · exact Or.inl (List.mem_cons_of_mem q h)
    · rw [dictInsert, if_neg hq] at h
      rcases List.mem_cons.mp h with h | h
      · exact Or.inl (h ▸ List.mem_cons_self q rest)
      · rcases ih h with h | h
        · exact Or.inl (List.mem_cons_of_mem q h)
        · exact Or.inr h

theorem dictGet_isSome_of_mem (d : Env) (p : String × EValue) (h : p ∈ d) :
    (dictGet d p.1).isSome := by
  induction d with
  | nil => cases h
  | cons q rest ih =>
    rcases List.mem_cons.mp h with h | h
    · subst h
      simp [dictGet]
    · by_cases hq : q.1 = p.1
      · simp [dictGet, hq]
      · simpa [dictGet, hq] using ih h

theorem dictInsert_eq_self (d : Env) (k : String) (v : EValue)
    (hsome : (dictGet d k).isSome)
    (hall : ∀ p ∈ d, p.1 = k → p.2 = v) : dictInsert d k v = d := by
  induction d with
  | nil => simp [dictGet] at hsome
  | cons q rest ih =>
    by_cases hq : q.1 = k
    · rw [dictInsert, if_pos hq]
      have hv : q.2 = v := hall q (List.mem_cons_self q rest) hq
      rw [← hq, ← hv]
    · rw [dictInsert, if_neg hq]
      rw [List.cons_inj_right]
      exact ih (by simpa [dictGet, hq] using hsome)
        (fun p hp => hall p (List.mem_cons_of_mem q hp))

theorem dictInsert_append_of_none (d : Env) (k : String) (v : EValue)
    (h : dictGet d k = none) : dictInsert d k v = d ++ [(k, v)] := by
  induction d with
  | nil => rfl
  | cons q rest ih =>
    by_cases hq : q.1 = k
    · simp [dictGet, hq] at h
    · rw [dictInsert, if_neg hq, List.cons_append, List.cons_inj_right]
      exact ih (by simpa [dictGet, hq] using h)

/-- The keys of the variable-valued entries of an environment — the shape of
the parameter-list filter in `from_onnx`. -/
def varKeys (d : Env) : List String :=
  (d.filter (fun p => isVar p.2)).map (·.1)

theorem paramNames_eq_varKeys (st : InState) : paramNames st = varKeys st.inputsD := rfl

theorem varKeys_append_single (d : Env) (k : String) (v : EValue) :
    varKeys (d ++ [(k, v)]) = varKeys d ++ (if isVar v then [k] else []) := by
  rw [varKeys, List.filter_append, List.map_append]
  cases hv : isVar v <;> simp [varKeys, List.filter, hv]

theorem mem_foldl_firstOcc (l : List String) : ∀ (acc : List String) (x : String),
    x ∈ l.foldl (fun acc n => if n ∈ acc then acc else acc ++ [n]) acc
      ↔ x ∈ acc ∨ x ∈ l := by
  induction l with
  | nil => intro acc x; simp
  | cons a tl ih =>
    intro acc x
    rw [List.foldl_cons, ih]
    by_cases ha : a ∈ acc
    · rw [if_pos ha]
      constructor
      · rintro (h | h)
        · exact Or.inl h
        · exact Or.inr (List.mem_cons_of_mem a h)
      · rintro (h | h)
        · exact Or.inl h
        · rcases List.mem_cons.mp h with h | h
          · exact Or.inl (h ▸ ha)
          · exact Or.inr h
    · rw [if_neg ha]
      simp only [List.mem_append, List.mem_singleton, List.mem_cons]
      tauto

theorem mem_firstOcc (l : List String) (x : String) :
    x ∈ firstOcc l ↔ x ∈ l := by
  simpa using mem_foldl_firstOcc l [] x

theorem firstOcc_append_single (l : List String) (n : String) :
    firstOcc (l ++ [n])
      = if n ∈ firstOcc l then firstOcc l else firstOcc l ++ [n] := by
  rw [firstOcc, List.foldl_append]
  rfl

/-! ### The input-parsing invariant for C4 -/

/-- The invariant maintained by `_parse_graph_input` over the declared
inputs processed so far: initializer bindings are untouched; a name is bound
in `self._nodes` exactly when it is an initializer or already processed;
`self._inputs` mirrors `self._nodes` on exactly the processed names; and the
variable-valued entries of `self._inputs` are exactly the first-seen
non-initializer input names. -/
def InputInv (env0 : Env) (st : InState) (processed : List String) : Prop :=
  (∀ n v, dictGet env0 n = some v → dictGet st.nodes n = some v)
  ∧ (∀ n, (dictGet st.nodes n).isSome ↔ ((dictGet env0 n).isSome ∨ n ∈ processed))
  ∧ (∀ p ∈ st.inputsD, dictGet st.nodes p.1 = some p.2)
  ∧ (∀ n, (dictGet st.inputsD n).isSome ↔ n ∈ processed)
  ∧ paramNames st = (firstOcc processed).filter (fun n => (dictGet env0 n).isNone)

theorem input_inv_step (dt : DtypeSpec) (sd : List (String × List Int))
    (san : Bool) (env0 : Env)
    (h0 : ∀ n v, dictGet env0 n = some v → isVar v = false)
    (st : InState) (processed : List String) (gi : GraphInput)
    (hinv : InputInv env0 st processed) :
    InputInv env0 (parse_input_one dt sd san st gi) (processed ++ [gi.name]) := by
  obtain ⟨h1, h2, h3, h4, h5⟩ := hinv
  cases hb : dictGet st.nodes gi.name with
  | some v =>
    have hstep : parse_input_one dt sd san st gi
        = { st with inputsD := dictInsert st.inputsD gi.name v } := by
      unfold parse_input_one
      rw [hb]
    rw [hstep]
    refine ⟨h1, ?_, ?_, ?_, ?_⟩
    · intro n
      by_cases hn : n = gi.name
      · subst hn
        simp [hb, List.mem_append]
      · rw [h2 n]
        simp [List.mem_append, hn]
    · intro p hp
      rcases mem_dictInsert _ _ _ _ hp with hp | hp
      · exact h3 p hp
      · rw [hp]
        exact hb
    · intro n
      by_cases hn : n = gi.name
      · subst hn
        simp [dictGet_dictInsert_self, List.mem_append]
      · rw [paramNames_eq_varKeys] at h5
        rw [dictGet_dictInsert_ne _ _ _ _ hn, h4 n]
        simp [List.mem_append, hn]
    · by_cases hin : (dictGet st.inputsD gi.name).isSome
      · have heq : dictInsert st.inputsD gi.name v = st.inputsD := by
          refine dictInsert_eq_self _ _ _ hin ?_
          intro p hp hpk
          have hv := h3 p hp
          rw [hpk, hb] at hv
          exact (Option.some_inj.mp hv).symm
        have hmem : gi.name ∈ processed := (h4 gi.name).mp hin
        rw [paramNames_eq_varKeys]
        show varKeys (dictInsert st.inputsD gi.name v) = _
        rw [heq, firstOcc_append_single,
          if_pos ((mem_firstOcc processed gi.name).mpr hmem)]
        exact h5
      · have hnone : dictGet st.inputsD gi.name = none :=
          Option.not_isSome_iff_eq_none.mp hin
        have hnp : gi.name ∉ processed := fun hc => hin ((h4 gi.name).mpr hc)
        have henv : (dictGet env0 gi.name).isSome := by
          have := (h2 gi.name).mp (by simp [hb])
          rcases this with h | h
          · exact h
          · exact absurd h hnp
        obtain ⟨w, hw⟩ := Option.isSome_iff_exists.mp henv
        have hvw : v = w := by
          have := h1 gi.name w hw
          rw [hb] at this
          exact Option.some_inj.mp this
        have hvar : isVar v = false := hvw ▸ h0 gi.name w hw
        rw [paramNames_eq_varKeys]
        show varKeys (dictInsert st.inputsD gi.name v) = _
        rw [dictInsert_append_of_none _ _ _ hnone, varKeys_append_single,
          if_neg (by simp [hvar]), List.append_nil,
          firstOcc_append_single,
          if_neg (fun hc => hnp ((mem_firstOcc processed gi.name).mp hc)),
          List.filter_append]
        have : (firstOcc processed).filter (fun n => (dictGet env0 n).isNone)
            = paramNames st := h5.symm
        rw [paramNames_eq_varKeys] at this
        rw [this]
        have hfalse : (dictGet env0 gi.name).isNone = false := by
          cases hx : dictGet env0 gi.name with
          | none => rw [hx] at henv; cases henv
          | some w => rfl
        have : ([gi.name] : List String).filter
            (fun n => (dictGet env0 n).isNone) = [] := by
          simp [List.filter, hfalse]
        rw [this, List.append_nil]
  | none =>
    have hnE : dictGet env0 gi.name = none := by
      have := h2 gi.name
      rw [hb] at this
      simp only [Option.isSome_none, Bool.false_eq_true, false_iff, not_or] at this
      exact Option.not_isSome_iff_eq_none.mp this.1
    have hnp : gi.name ∉ processed := by
      have := h2 gi.name
      rw [hb] at this
      simp only [Option.isSome_none, Bool.false_eq_true, false_iff, not_or] at this
      exact this.2
    have hnI : dictGet st.inputsD gi.name = none :=
      Option.not_isSome_iff_eq_none.mp (fun hc => hnp ((h4 gi.name).mp hc))
    have hstep : parse_input_one dt sd san st gi
        = { st with
            nodes := dictInsert st.nodes gi.name
              (.var (if san then sanitize_name st.supply gi.name
                else (gi.name, st.supply)).1 .tensorInfo
                (chooseDtype dt gi.name gi.elemType))
            inputsD := dictInsert st.inputsD gi.name
              (.var (if san then sanitize_name st.supply gi.name
                else (gi.name, st.supply)).1 .tensorInfo
                (chooseDtype dt gi.name gi.elemType))
            input_names := st.input_names ++ [gi.name]
            num_input := st.num_input + 1
            supply := (if san then sanitize_name st.supply gi.name
              else (gi.name, st.supply)).2 } := by
      unfold parse_input_one
      rw [hb]
    set newv : EValue := .var (if san then sanitize_name st.supply gi.name
      else (gi.name, st.supply)).1 .tensorInfo
      (chooseDtype dt gi.name gi.elemType) with hnewv
    rw [hstep]
    refine ⟨?_, ?_, ?_, ?_, ?_⟩
    · intro n v hv
      have hn : n ≠ gi.name := fun hc => by
        rw [hc, hnE] at hv
        cases hv
      rw [dictGet_dictInsert_ne _ _ _ _ hn]
      exact h1 n v hv
    · intro n
      by_cases hn : n = gi.name
      · subst hn
        simp [dictGet_dictInsert_self, List.mem_append]
      · rw [dictGet_dictInsert_ne _ _ _ _ hn, h2 n]
        simp [List.mem_append, hn]
    · intro p hp
      rcases mem_dictInsert _ _ _ _ hp with hp | hp
      · have hps : (dictGet st.inputsD p.1).isSome := dictGet_isSome_of_mem _ p hp
        have hpn : p.1 ≠ gi.name := fun hc => by
          rw [hc, hnI] at hps
          cases hps
        rw [dictGet_dictInsert_ne _ _ _ _ hpn]
        exact h3 p hp
      · rw [hp]
        exact dictGet_dictInsert_self st.nodes gi.name newv
    · intro n
      by_cases hn : n = gi.name
      · subst hn
        simp [dictGet_dictInsert_self, List.mem_append]
      · rw [dictGet_dictInsert_ne _ _ _ _ hn, h4 n]
        simp [List.mem_append, hn]
    · rw [paramNames_eq_varKeys]
      show varKeys (dictInsert st.inputsD gi.name newv) = _
      rw [dictInsert_append_of_none _ _ _ hnI, varKeys_append_single,
        if_pos (by rw [hnewv]; rfl),
        firstOcc_append_single,
        if_neg (fun hc => hnp ((mem_firstOcc processed gi.name).mp hc)),
        List.filter_append]
      have h5' : (firstOcc processed).filter (fun n => (dictGet env0 n).isNone)
          = varKeys st.inputsD := by
        rw [← paramNames_eq_varKeys]
        exact h5.symm
      rw [h5']
      have : ([gi.name] : List String).filter
          (fun n => (dictGet env0 n).isNone) = [gi.name] := by
        simp [List.filter, hnE]
      rw [this]

theorem input_inv_fold (dt : DtypeSpec) (sd : List (String × List Int))
    (san : Bool) (env0 : Env)
    (h0 : ∀ n v, dictGet env0 n = some v → isVar v = false)
    (gins : List GraphInput) :
    ∀ (st : InState) (processed : List String), InputInv env0 st processed →
      InputInv env0 (gins.foldl (parse_input_one dt sd san) st)
        (processed ++ gins.map (·.name)) := by
  induction gins with
  | nil => intro st processed h; simpa using h
  | cons gi rest ih =>
    intro st processed h
    have hstep := input_inv_step dt sd san env0 h0 st processed gi h
    have := ih _ _ hstep
    simpa [List.append_assoc] using this

theorem parse_inits_nonvar : ∀ (inits : List (String × List Int)) (env env' : Env),
    parse_graph_initializers_from env inits = .ok env' →
    (∀ n v, dictGet env n = some v → isVar v = false) →
    (∀ n v, dictGet env' n = some v → isVar v = false) := by
  intro inits
  induction inits with
  | nil =>
    intro env env' h h0
    cases h
    exact h0
  | cons p rest ih =>
    intro env env' h h0
    rw [parse_graph_initializers_from] at h
    by_cases hs : pyStrip p.1 = ""
    · rw [if_pos hs] at h
      cases h
    · rw [if_neg hs] at h
      refine ih _ _ h ?_
      intro n v hv
      by_cases hn : n = p.1
      · subst hn
        rw [dictGet_dictInsert_self] at hv
        rw [← Option.some_inj.mp hv]
        rfl
      · exact h0 n v (by rwa [dictGet_dictInsert_ne _ _ _ _ hn] at hv)

/-- C4 (status: confirmed). For every declared graph input that also appears
as an initializer, no function parameter is created: the parameter-name list
of the finalized function is exactly the first-seen-order list of declared
input names that are not initializer-bound, and every initializer name stays
bound to its initializer constant after input parsing. -/
theorem C4_initializer_shadows_input (inits : List (String × List Int))
    (env0 : Env) (h0 : parse_graph_initializers inits = .ok env0)
    (dt : DtypeSpec) (sd : List (String × List Int)) (san : Bool)
    (supply : NameSupply) (gins : List GraphInput) :
    paramNames (parse_graph_input dt sd san env0 supply gins)
      = (firstOcc (gins.map (·.name))).filter (fun n => (dictGet env0 n).isNone)
    ∧ ∀ n v, dictGet env0 n = some v →
        dictGet (parse_graph_input dt sd san env0 supply gins).nodes n = some v := by
  have hnv : ∀ n v, dictGet env0 n = some v → isVar v = false :=
    parse_inits_nonvar inits [] env0 h0 (fun n v hv => by cases hv)
  have hinit : InputInv env0 ⟨env0, [], [], 0, supply⟩ [] := by
    refine ⟨fun n v h => h, ?_, ?_, ?_, ?_⟩
    · intro n
      simp
    · intro p hp
      cases hp
    · intro n
      simp [dictGet]
    · rfl
  have h := input_inv_fold dt sd san env0 hnv gins ⟨env0, [], [], 0, supply⟩ [] hinit
  rw [List.nil_append] at h
  exact ⟨h.2.2.2.2, h.1⟩

/-- Witness for C4 at a concrete graph: with initializer `w` and declared
inputs `w, x`, the only parameter is `x` and `w` stays bound to its
initializer constant. -/
theorem C4_initializer_shadows_input_witness :
    paramNames (parse_graph_input (.single "float32") [] false
        [("w", .const [5])] ⟨[]⟩ [⟨"w", [1], none⟩, ⟨"x", [1], none⟩]) = ["x"]
    ∧ dictGet (parse_graph_input (.single "float32") [] false
        [("w", .const [5])] ⟨[]⟩ [⟨"w", [1], none⟩, ⟨"x", [1], none⟩]).nodes "w"
      = some (.const [5]) := by
  have h := C4_initializer_shadows_input [("w", [5])] [("w", EValue.const [5])]
    rfl (.single "float32") [] false ⟨[]⟩ [⟨"w", [1], none⟩, ⟨"x", [1], none⟩]
  exact ⟨by rw [h.1]; rfl, h.2 "w" (.const [5]) rfl⟩

end Onnx
